import Mathlib

/-!
Verification of `ck_bag` (include/ck_bag.h): a lock-free SPMC bag of
pointer-sized values stored in a chain of blocks, with each block's live-entry
count packed into the top 16 bits of its `next` pointer.

Shallow embedding conventions:
* Machine words (`uintptr_t`) are `Nat` with explicit `% 2 ^ 64` / masking where
  overflow or truncation matters; pointers are word values with `0` playing the
  role of `NULL`.
* The read-side heap is modelled as total functions from block addresses to the
  tagged `next` word and from `(address, slot index)` to the stored entry; the
  inline read-only functions of the header are translated branch by branch.
* The mutating operations (`ck_bag_put_spmc`, `ck_bag_remove_spmc`) are only
  declared in the header (their definitions live in a translation unit that is
  not part of the sources); where a claim depends on them they are modelled
  from the specification, as marked on each definition.
-/

/-- `#define CK_BAG_BLOCK_ENTRIES_MASK ((uintptr_t)0xFFFF << 48)`. -/
def CK_BAG_BLOCK_ENTRIES_MASK : Nat := 0xFFFF <<< 48

/-- The 64-bit complement `~CK_BAG_BLOCK_ENTRIES_MASK` used by
`ck_bag_block_next`. -/
def ckBagEntriesMaskCompl : Nat := (2 ^ 64 - 1) ^^^ CK_BAG_BLOCK_ENTRIES_MASK

/-- `ck_bag_block_next`: clears the packed count bits of a tagged block
pointer, `(uintptr_t)block & ~CK_BAG_BLOCK_ENTRIES_MASK`. The argument is the
tagged word (a `struct ck_bag_block *` reinterpreted as `uintptr_t`). -/
def ck_bag_block_next (block : Nat) : Nat :=
  block &&& ckBagEntriesMaskCompl

/-- `ck_bag_block_count` reads a block's tagged `next` word and returns its
top 16 bits, truncated to `uint16_t`: `(uintptr_t)ck_pr_load_ptr(&block->next)
>> 48`. Here the argument is the loaded `next` word itself; the heap
indirection is made explicit at each call site. -/
def ck_bag_block_count (nextWord : Nat) : Nat :=
  (nextWord >>> 48) % 2 ^ 16

/-! ## Read-side heap model and the iterator -/

/-- The read-side view of bag memory: `next b` is the tagged `next` word
stored in the block at address `b` (pointer in the low 48 bits, live count in
the top 16), and `slots b i` is `block->array[i]` of that block. Address `0`
plays the role of `NULL` and is never dereferenced by the translated code. -/
structure BagHeap (α : Type) where
  next : Nat → Nat
  slots : Nat → Nat → α

/-- `struct ck_bag_iterator`: a block address (`0` = `NULL`) and a slot
index (`uint16_t` in the source; every value it can hold is covered by
quantifying over `Nat`). -/
structure ck_bag_iterator where
  block : Nat
  index : Nat
deriving DecidableEq, Repr

/-- `ck_bag_iterator_init`: stores the loaded chain head in `iterator->block`
and resets `iterator->index` to `0`. `head` is the value of
`ck_pr_load_ptr(&bag->head)`. -/
def ck_bag_iterator_init (head : Nat) : ck_bag_iterator :=
  ⟨head, 0⟩

/-- `ck_bag_next`, translated branch by branch. `entry` is the value behind
the `void **entry` out-parameter on entry to the call; the returned triple is
(return value, iterator state after the call, value behind `entry` after the
call). Notes on the source: the first early exit is written `return NULL`,
which converts to `false`; in the advance branch the source assigns
`iterator->block` before the absent/empty test and does not reset
`iterator->index` when that test fails; the second `NULL` test of the source
is dead (both paths reaching it have a non-`NULL` block) and so has no
translation. -/
def ck_bag_next {α : Type} (h : BagHeap α) (it : ck_bag_iterator)
    (entry : α) : Bool × ck_bag_iterator × α :=
  if it.block = 0 then (false, it, entry)
  else
    let n_entries := ck_bag_block_count (h.next it.block)
    if n_entries ≤ it.index then
      let next := h.next it.block
      let blk := ck_bag_block_next next
      if blk = 0 ∨ ck_bag_block_count (h.next blk) = 0 then
        (false, ⟨blk, it.index⟩, entry)
      else
        (true, ⟨blk, 1⟩, h.slots blk 0)
    else
      (true, ⟨it.block, it.index + 1⟩, h.slots it.block it.index)

/-- A three-block chain refuting the claim that a `false` return of
`ck_bag_next` is terminal: block 1 holds one entry and points at block 2;
block 2 is empty (count 0) and points at block 3; block 3 holds one entry and
ends the chain. Slot `i` of block `b` stores `10 * b + i`. -/
def exhaustionHeap : BagHeap Nat :=
  BagHeap.mk
    (fun b => if b = 1 then 2 + 1 * 2 ^ 48
              else if b = 2 then 3
              else if b = 3 then 1 * 2 ^ 48
              else 0)
    (fun b i => 10 * b + i)

/-! ## Spec-modelled mutator: blocks, put, remove

The bodies of `ck_bag_init`, `ck_bag_put_spmc` and `ck_bag_remove_spmc` are
only declared in the header; the definitions below model them from the
specification. A block is a fixed-capacity slot array (`max` slots, `max` the
configured entries-per-block) with a live count; live entries are the first
`count` slots, slots past `count` keep stale values. The bag is the chain of
blocks (head first) plus the running totals. Growth is modelled with the
linear strategy (one fresh zero-count block linked at the chain head per
growth event) and allocation is modelled as infallible; the insertion target
is the first non-full block in chain order (standing in for the head of the
availability list, which is some non-full block). -/

/-- `struct ck_bag_block`, abstracted: the slot array and the live count the
source packs into the top bits of `next` (chain linkage is the list spine). -/
structure ck_bag_block (α : Type) where
  slots : List α
  count : Nat
deriving DecidableEq, Repr

/-- `struct ck_bag`: block chain (head first) and the running totals. -/
structure ck_bag (α : Type) where
  head : List (ck_bag_block α)
  n_entries : Nat
  n_blocks : Nat
deriving DecidableEq, Repr

/-- `ck_bag_count`: returns the bag's running total entry count (the atomic
load is a plain read in a quiescent state). -/
def ck_bag_count {α : Type} (bag : ck_bag α) : Nat :=
  bag.n_entries

/-- Modelled from the spec: `ck_bag_init` on an empty bag — no blocks, zero
totals. -/
def ck_bag_init {α : Type} : ck_bag α :=
  ⟨[], 0, 0⟩

/-- The live entries of a block: the contiguous slice `[0, count)` of its
slot array. -/
def ck_bag_block_live {α : Type} (b : ck_bag_block α) : List α :=
  b.slots.take b.count

/-- Modelled from the spec: writing an entry into a block's first free slot
(`array[count]`) and bumping the count by one. -/
def ck_bag_block_put {α : Type} (x : α) (b : ck_bag_block α) :
    ck_bag_block α :=
  ⟨b.slots.set b.count x, b.count + 1⟩

/-- Modelled from the spec: insertion into the first block of the chain with
a free slot, `none` when every block is full (the growth trigger). -/
def chainPut {α : Type} (max : Nat) (x : α) :
    List (ck_bag_block α) → Option (List (ck_bag_block α))
  | [] => none
  | b :: rest =>
    if b.count < max then some (ck_bag_block_put x b :: rest)
    else (chainPut max x rest).map (b :: ·)

/-- Modelled from the spec: `ck_bag_put_spmc` — insert into a non-full block
if one exists, otherwise link a fresh block (slots initially `d`) at the
chain head and insert into it; bump `n_entries`, and `n_blocks` on growth.
Allocation is modelled as infallible, so the call always succeeds. -/
def ck_bag_put_spmc {α : Type} (max : Nat) (d : α) (bag : ck_bag α)
    (x : α) : Bool × ck_bag α :=
  match chainPut max x bag.head with
  | some ch => (true, ⟨ch, bag.n_entries + 1, bag.n_blocks⟩)
  | none =>
    (true, ⟨ck_bag_block_put x ⟨List.replicate max d, 0⟩ :: bag.head,
      bag.n_entries + 1, bag.n_blocks + 1⟩)

/-- Index of the first occurrence of `x` in a list, if any. -/
def findIdxFrom {α : Type} [DecidableEq α] (x : α) : List α → Option Nat
  | [] => none
  | y :: r => if y = x then some 0 else (findIdxFrom x r).map (· + 1)

/-- Modelled from the spec: compaction step of `remove` — the last live slot
is copied into the vacated position `i` (unless the vacated slot is already
the last) and the count drops by one. `d` is only a fallback for the
out-of-range read that never happens on well-formed blocks. -/
def ck_bag_block_remove {α : Type} (d : α) (b : ck_bag_block α) (i : Nat) :
    ck_bag_block α :=
  if i = b.count - 1 then ⟨b.slots, b.count - 1⟩
  else ⟨b.slots.set i (b.slots.getD (b.count - 1) d), b.count - 1⟩

/-- Modelled from the spec: linear scan of the chain for the first live
occurrence of `x`, compacting the block that holds it. -/
def chainRemove {α : Type} [DecidableEq α] (d : α) (x : α) :
    List (ck_bag_block α) → Option (List (ck_bag_block α))
  | [] => none
  | b :: rest =>
    match findIdxFrom x (ck_bag_block_live b) with
    | some i => some (ck_bag_block_remove d b i :: rest)
    | none => (chainRemove d x rest).map (b :: ·)

/-- Modelled from the spec: `ck_bag_remove_spmc` — scan for `x`, compact the
block that holds it and decrement `n_entries`; report failure (leaving the
bag unchanged) when `x` is not present. Blocks are never unlinked. -/
def ck_bag_remove_spmc {α : Type} [DecidableEq α] (d : α) (bag : ck_bag α)
    (x : α) : Bool × ck_bag α :=
  match chainRemove d x bag.head with
  | some ch => (true, ⟨ch, bag.n_entries - 1, bag.n_blocks⟩)
  | none => (false, bag)

/-- One single-mutator operation. -/
inductive BagOp (α : Type) where
  | put (x : α)
  | remove (x : α)
deriving DecidableEq, Repr

/-- Applies one operation, keeping the resulting state. -/
def applyOp {α : Type} [DecidableEq α] (max : Nat) (d : α)
    (bag : ck_bag α) : BagOp α → ck_bag α
  | BagOp.put x => (ck_bag_put_spmc max d bag x).2
  | BagOp.remove x => (ck_bag_remove_spmc d bag x).2

/-- Applies a sequence of operations left to right. -/
def applyOps {α : Type} [DecidableEq α] (max : Nat) (d : α)
    (bag : ck_bag α) : List (BagOp α) → ck_bag α
  | [] => bag
  | op :: ops => applyOps max d (applyOp max d bag op) ops

/-- Number of puts in the sequence that return success. -/
def succPuts {α : Type} [DecidableEq α] (max : Nat) (d : α)
    (bag : ck_bag α) : List (BagOp α) → Nat
  | [] => 0
  | BagOp.put x :: ops =>
    (if (ck_bag_put_spmc max d bag x).1 then 1 else 0) +
      succPuts max d (ck_bag_put_spmc max d bag x).2 ops
  | BagOp.remove x :: ops =>
    succPuts max d (ck_bag_remove_spmc d bag x).2 ops

/-- Number of removes in the sequence that return success. -/
def succRemoves {α : Type} [DecidableEq α] (max : Nat) (d : α)
    (bag : ck_bag α) : List (BagOp α) → Nat
  | [] => 0
  | BagOp.put x :: ops =>
    succRemoves max d (ck_bag_put_spmc max d bag x).2 ops
  | BagOp.remove x :: ops =>
    (if (ck_bag_remove_spmc d bag x).1 then 1 else 0) +
      succRemoves max d (ck_bag_remove_spmc d bag x).2 ops

/-- Sum of the per-block live counts along a chain. -/
def chainEntries {α : Type} : List (ck_bag_block α) → Nat
  | [] => 0
  | b :: rest => b.count + chainEntries rest

/-- Multiset of live entries along a chain: the union of the contiguous
prefixes `[0, count)` of the blocks. -/
def chainLive {α : Type} : List (ck_bag_block α) → Multiset α
  | [] => 0
  | b :: rest => ↑(ck_bag_block_live b) + chainLive rest

/-- The multiset of entries an operation sequence should leave, starting from
`m`: each put adds its entry, each remove erases one occurrence if present. -/
def opsLiveFrom {α : Type} [DecidableEq α] (m : Multiset α) :
    List (BagOp α) → Multiset α
  | [] => m
  | BagOp.put x :: ops => opsLiveFrom (x ::ₘ m) ops
  | BagOp.remove x :: ops => opsLiveFrom (m.erase x) ops

/-- Chain well-formedness: every block's count is within the configured
capacity and every slot array has exactly that capacity. -/
def chainWF {α : Type} (max : Nat) (ch : List (ck_bag_block α)) : Prop :=
  ∀ b ∈ ch, b.count ≤ max ∧ b.slots.length = max

/-- Running-total consistency: `n_entries` is the sum of the per-block live
counts and `n_blocks` is the number of blocks reachable from the chain
head. -/
def bagCounts {α : Type} (bag : ck_bag α) : Prop :=
  bag.n_entries = chainEntries bag.head ∧ bag.n_blocks = bag.head.length

/-! ## Claims and supporting lemmas -/

theorem ckBagEntriesMaskCompl_eq : ckBagEntriesMaskCompl = 2 ^ 48 - 1 := by
  decide

theorem ck_bag_block_next_eq_mod (block : Nat) :
    ck_bag_block_next block = block % 2 ^ 48 := by
  rw [ck_bag_block_next, ckBagEntriesMaskCompl_eq,
    Nat.and_pow_two_sub_one_eq_mod]

/-- C1: decoding the packed word recovers both components. For a pointer `p`
whose top 16 bits are zero (`p < 2 ^ 48`) and a count `c ≤ 65535`, storing `c`
in the top 16 bits of `p` yields a word from which `ck_bag_block_count`
recovers exactly `c` (the count field is 16 bits wide, not the three bytes of
the source comment) and `ck_bag_block_next` recovers exactly `p`. -/
theorem ck_bag_packed_word_roundtrip (p c : Nat) (hp : p < 2 ^ 48)
    (hc : c ≤ 65535) :
    ck_bag_block_count (p + c * 2 ^ 48) = c ∧
      ck_bag_block_next (p + c * 2 ^ 48) = p := by
  constructor
  · rw [ck_bag_block_count, Nat.shiftRight_eq_div_pow]
    rw [Nat.add_mul_div_right _ _ (by positivity), Nat.div_eq_of_lt hp,
      Nat.zero_add, Nat.mod_eq_of_lt (by omega)]
  · rw [ck_bag_block_next_eq_mod, Nat.add_mul_mod_self_right,
      Nat.mod_eq_of_lt hp]

/-- Witness for C1 at `p = 42`, `c = 7`. -/
theorem ck_bag_packed_word_roundtrip_witness :
    ck_bag_block_count (42 + 7 * 2 ^ 48) = 7 ∧
      ck_bag_block_next (42 + 7 * 2 ^ 48) = 42 :=
  ck_bag_packed_word_roundtrip 42 7 (by norm_num) (by norm_num)

/-- C10: `ck_bag_block_next` is idempotent on pointer-sized words and its
result always has the top 16 count bits clear. -/
theorem ck_bag_block_next_idempotent (b : Nat) (hb : b < 2 ^ 64) :
    ck_bag_block_next (ck_bag_block_next b) = ck_bag_block_next b ∧
      ck_bag_block_next b < 2 ^ 48 := by
  simp only [ck_bag_block_next_eq_mod]
  exact ⟨Nat.mod_mod_of_dvd b dvd_rfl, Nat.mod_lt _ (by positivity)⟩

/-- Witness for C10 at the tagged word `5 + 3 * 2 ^ 48`. -/
theorem ck_bag_block_next_idempotent_witness :
    ck_bag_block_next (ck_bag_block_next (5 + 3 * 2 ^ 48)) =
        ck_bag_block_next (5 + 3 * 2 ^ 48) ∧
      ck_bag_block_next (5 + 3 * 2 ^ 48) < 2 ^ 48 :=
  ck_bag_block_next_idempotent (5 + 3 * 2 ^ 48) (by norm_num)

/-- C6: when the iterator's block is present and its index is strictly below
that block's observed count, `ck_bag_next` returns `true`, writes the slot at
the current index through the entry out-parameter, and advances the index by
exactly one while leaving the current block unchanged. -/
theorem ck_bag_next_in_block {α : Type} (h : BagHeap α)
    (it : ck_bag_iterator) (e : α) (hb : it.block ≠ 0)
    (hi : it.index < ck_bag_block_count (h.next it.block)) :
    ck_bag_next h it e =
      (true, ⟨it.block, it.index + 1⟩, h.slots it.block it.index) := by
  rw [ck_bag_next, if_neg hb, if_neg (by omega)]

/-- Witness for C6: a one-block heap with count 2, iterator at index 0. -/
theorem ck_bag_next_in_block_witness :
    (⟨1, 0⟩ : ck_bag_iterator).block ≠ 0 ∧
      (⟨1, 0⟩ : ck_bag_iterator).index <
        ck_bag_block_count ((BagHeap.mk (fun _ => 2 * 2 ^ 48)
          (fun b i => 10 * b + i)).next 1) ∧
      ck_bag_next (BagHeap.mk (fun _ => 2 * 2 ^ 48) (fun b i => 10 * b + i))
          ⟨1, 0⟩ 99 = (true, ⟨1, 1⟩, 10) :=
  ⟨by decide, by decide,
    ck_bag_next_in_block _ ⟨1, 0⟩ 99 (by decide) (by decide)⟩

/-- C9: whenever `ck_bag_next` returns `false`, it does not write through the
entry out-parameter: the caller's entry location retains its prior value. -/
theorem ck_bag_next_false_no_write {α : Type} (h : BagHeap α)
    (it : ck_bag_iterator) (e : α)
    (hf : (ck_bag_next h it e).1 = false) :
    (ck_bag_next h it e).2.2 = e := by
  simp only [ck_bag_next] at hf ⊢
  split
  · rfl
  · split
    · split
      · rfl
      · simp_all
    · simp_all

/-- Witness for C9: a `NULL`-block iterator leaves the entry value `7`
untouched. -/
theorem ck_bag_next_false_no_write_witness :
    (ck_bag_next (BagHeap.mk (fun _ => 0) (fun _ _ => 0)) ⟨0, 0⟩ 7).2.2 = 7 :=
  ck_bag_next_false_no_write (BagHeap.mk (fun _ => 0) (fun _ _ => 0))
    ⟨0, 0⟩ 7 (by decide)

/-- C8: `ck_bag_iterator_init` sets the iterator's block to the bag's loaded
chain head and its index to `0`; and on a bag with no blocks (`NULL` head) the
first `ck_bag_next` call returns `false`, leaves the iterator in its initial
state, and yields no entry (the out-parameter keeps its prior value). -/
theorem ck_bag_iterator_init_spec :
    (∀ head : Nat, ck_bag_iterator_init head = ⟨head, 0⟩) ∧
      ∀ (h : BagHeap Nat) (e : Nat),
        ck_bag_next h (ck_bag_iterator_init 0) e =
          (false, ck_bag_iterator_init 0, e) := by
  refine ⟨fun head => rfl, fun h e => ?_⟩
  simp [ck_bag_next, ck_bag_iterator_init]

/-- C3: every slot read performed by `ck_bag_next` is in bounds with respect
to the count it loaded: whenever the call returns `true`, the value it wrote
through the entry out-parameter was read from some block `b` at some index
`i` with `i` strictly below the observed live count of `b`, and the iterator
was left at `⟨b, i + 1⟩`. -/
theorem ck_bag_next_read_in_bounds {α : Type} (h : BagHeap α)
    (it : ck_bag_iterator) (e : α)
    (ht : (ck_bag_next h it e).1 = true) :
    ∃ b i, i < ck_bag_block_count (h.next b) ∧
      ck_bag_next h it e = (true, ⟨b, i + 1⟩, h.slots b i) := by
  simp only [ck_bag_next] at ht ⊢
  split at ht
  · simp at ht
  · split at ht
    · split at ht
      · simp at ht
      · refine ⟨ck_bag_block_next (h.next it.block), 0, by omega, ?_⟩
        simp_all
    · exact ⟨it.block, it.index, by omega, by simp_all⟩

/-- Witness for C3: a one-block heap with count 1, iterator at index 0. -/
theorem ck_bag_next_read_in_bounds_witness :
    (ck_bag_next (BagHeap.mk (fun _ => 2 ^ 48) (fun b i => 10 * b + i))
        ⟨1, 0⟩ 99).1 = true ∧
      ∃ b i, i < ck_bag_block_count
          ((BagHeap.mk (fun _ => 2 ^ 48) (fun b i => 10 * b + i)).next b) ∧
        ck_bag_next (BagHeap.mk (fun _ => 2 ^ 48) (fun b i => 10 * b + i))
          ⟨1, 0⟩ 99 = (true, ⟨b, i + 1⟩,
            (BagHeap.mk (fun _ => 2 ^ 48) (fun b i => 10 * b + i)).slots b i) :=
  ⟨by decide, ck_bag_next_read_in_bounds _ ⟨1, 0⟩ 99 (by decide)⟩

/-- C2: counterexample on the code. Over `exhaustionHeap`, starting from a
freshly initialized iterator on chain head 1 and with no intervening
mutation, the first call of `ck_bag_next` yields the entry of block 1, the
second call returns `false` (the advance reaches block 2, whose count is
observed as zero), yet the third call on the same iterator returns `true`
again and yields the entry of block 3: the code does not latch the exhausted
state, contradicting the claim that every call after a `false` also returns
`false`. -/
theorem ck_bag_next_false_not_terminal :
    (ck_bag_next exhaustionHeap (ck_bag_iterator_init 1) 0).1 = true ∧
      (ck_bag_next exhaustionHeap
        (ck_bag_next exhaustionHeap (ck_bag_iterator_init 1) 0).2.1
        (ck_bag_next exhaustionHeap (ck_bag_iterator_init 1) 0).2.2).1
        = false ∧
      (ck_bag_next exhaustionHeap
          (ck_bag_next exhaustionHeap
            (ck_bag_next exhaustionHeap (ck_bag_iterator_init 1) 0).2.1
            (ck_bag_next exhaustionHeap (ck_bag_iterator_init 1) 0).2.2).2.1
          (ck_bag_next exhaustionHeap
            (ck_bag_next exhaustionHeap (ck_bag_iterator_init 1) 0).2.1
            (ck_bag_next exhaustionHeap (ck_bag_iterator_init 1) 0).2.2).2.2)
        = (true, ⟨3, 1⟩, 30) := by
  decide

theorem findIdxFrom_some_spec {α : Type} [DecidableEq α] (x : α)
    (l : List α) (i : Nat) (h : findIdxFrom x l = some i) :
    i < l.length ∧ l[i]? = some x := by
  induction l generalizing i with
  | nil => simp [findIdxFrom] at h
  | cons y r ih =>
    by_cases hy : y = x
    · simp only [findIdxFrom, if_pos hy, Option.some.injEq] at h
      subst h
      simp [hy]
    · simp only [findIdxFrom, if_neg hy] at h
      cases hfr : findIdxFrom x r with
      | none => rw [hfr] at h; simp at h
      | some j =>
        rw [hfr] at h
        simp at h
        subst h
        obtain ⟨hlt, hget⟩ := ih j hfr
        exact ⟨by simpa using hlt, by simpa using hget⟩

theorem findIdxFrom_none_spec {α : Type} [DecidableEq α] (x : α)
    (l : List α) : findIdxFrom x l = none ↔ x ∉ l := by
  induction l with
  | nil => simp [findIdxFrom]
  | cons y r ih =>
    by_cases hy : y = x
    · simp [findIdxFrom, hy]
    · simp [findIdxFrom, hy, ih, Ne.symm hy]

theorem ck_bag_block_live_length {α : Type} (b : ck_bag_block α)
    (hc : b.count ≤ b.slots.length) :
    (ck_bag_block_live b).length = b.count := by
  simp [ck_bag_block_live, List.length_take]
  omega

theorem ck_bag_block_remove_spec {α : Type} [DecidableEq α] (d x : α)
    (b : ck_bag_block α) (i : Nat) (hc : b.count ≤ b.slots.length)
    (hi : i < b.count) (hx : (ck_bag_block_live b)[i]? = some x) :
    (↑(ck_bag_block_live (ck_bag_block_remove d b i)) + {x} : Multiset α) =
        ↑(ck_bag_block_live b) ∧
      (ck_bag_block_remove d b i).count = b.count - 1 ∧
      (ck_bag_block_remove d b i).slots.length = b.slots.length := by
  have hL : (ck_bag_block_live b).length = b.count :=
    ck_bag_block_live_length b hc
  have hiL : i < (ck_bag_block_live b).length := by omega
  have hxL : (ck_bag_block_live b)[i] = x := by
    rw [List.getElem?_eq_getElem hiL] at hx
    exact Option.some.injEq .. |>.mp hx
  have hsplit : ck_bag_block_live b =
      (ck_bag_block_live b).take (b.count - 1) ++
        [(ck_bag_block_live b)[b.count - 1]] := by
    have h1 := List.take_concat_get (ck_bag_block_live b) (b.count - 1)
      (by omega)
    rw [List.concat_eq_append] at h1
    rw [h1]
    have : b.count - 1 + 1 = b.count := by omega
    rw [this, ← hL, List.take_length]
  by_cases hlast : i = b.count - 1
  · subst hlast
    rw [ck_bag_block_remove, if_pos rfl]
    have hnewlive : ck_bag_block_live ⟨b.slots, b.count - 1⟩ =
        (ck_bag_block_live b).take (b.count - 1) := by
      simp only [ck_bag_block_live, List.take_take]
      congr 1
      omega
    refine ⟨?_, rfl, rfl⟩
    rw [hnewlive]
    calc (↑((ck_bag_block_live b).take (b.count - 1)) + {x} : Multiset α)
        = ↑((ck_bag_block_live b).take (b.count - 1) ++ [x]) := by
          rw [← Multiset.coe_singleton, Multiset.coe_add]
      _ = ↑(ck_bag_block_live b) := by rw [← hxL]; exact congrArg _ hsplit.symm
  · have hilt : i < b.count - 1 := by omega
    rw [ck_bag_block_remove, if_neg hlast]
    have hvd : b.slots.getD (b.count - 1) d =
        (ck_bag_block_live b)[b.count - 1] := by
      rw [List.getD_eq_getElem b.slots d (by omega)]
      simp [ck_bag_block_live]
    have hnewlive : ck_bag_block_live
        ⟨b.slots.set i (b.slots.getD (b.count - 1) d), b.count - 1⟩ =
        ((ck_bag_block_live b).take (b.count - 1)).set i
          (b.slots.getD (b.count - 1) d) := by
      simp only [ck_bag_block_live, List.set_take, List.take_take]
      congr 2
      omega
    refine ⟨?_, rfl, by simp⟩
    rw [hnewlive, hvd]
    set P := (ck_bag_block_live b).take (b.count - 1) with hP
    have hPlen : P.length = b.count - 1 := by
      simp [hP, List.length_take]
      omega
    have hPq : P[i]? = some x := by
      rw [hP, List.getElem?_take, if_pos hilt]
      exact hx
    have hPi : P[i] = x := by
      rw [List.getElem?_eq_getElem (by omega : i < P.length),
        Option.some.injEq] at hPq
      exact hPq
    have hPdecomp : P = P.take i ++ x :: P.drop (i + 1) := by
      conv_lhs => rw [← List.take_append_drop i P]
      rw [List.drop_eq_getElem_cons (by omega), hPi]
    set v := (ck_bag_block_live b)[b.count - 1] with hv
    have hset : P.set i v = P.take i ++ v :: P.drop (i + 1) :=
      List.set_eq_take_cons_drop v (by omega)
    rw [hset]
    conv_rhs => rw [hsplit, hPdecomp]
    have : (↑(P.take i ++ v :: P.drop (i + 1)) : Multiset α) =
        ↑(P.take i) + (v ::ₘ ↑(P.drop (i + 1))) := by
      rw [Multiset.cons_coe, Multiset.coe_add]
    rw [this]
    have : (↑((P.take i ++ x :: P.drop (i + 1)) ++ [v]) : Multiset α) =
        ↑(P.take i) + (x ::ₘ ↑(P.drop (i + 1))) + {v} := by
      rw [Multiset.cons_coe, ← Multiset.coe_singleton, Multiset.coe_add,
        Multiset.coe_add]
    rw [this, ← Multiset.singleton_add, ← Multiset.singleton_add]
    abel

theorem chainWF_cons {α : Type} (max : Nat) (b : ck_bag_block α)
    (ch : List (ck_bag_block α)) :
    chainWF max (b :: ch) ↔
      (b.count ≤ max ∧ b.slots.length = max) ∧ chainWF max ch := by
  simp [chainWF]

theorem ck_bag_block_put_live {α : Type} (x : α) (b : ck_bag_block α)
    (hc : b.count < b.slots.length) :
    ck_bag_block_live (ck_bag_block_put x b) = ck_bag_block_live b ++ [x] ∧
      (ck_bag_block_put x b).count = b.count + 1 ∧
      (ck_bag_block_put x b).slots.length = b.slots.length := by
  refine ⟨?_, rfl, by simp [ck_bag_block_put]⟩
  have htake : (b.slots.set b.count x).take (b.count + 1) =
      (b.slots.take (b.count + 1)).set b.count x := List.set_take
  have hsplit : b.slots.take (b.count + 1) =
      b.slots.take b.count ++ [b.slots[b.count]] := by
    rw [← List.take_concat_get b.slots b.count hc, List.concat_eq_append]
  have hlen : (b.slots.take b.count).length = b.count := by
    simp [List.length_take]
    omega
  rw [ck_bag_block_live, ck_bag_block_put, htake, hsplit]
  have hset : (b.slots.take b.count ++ [b.slots[b.count]]).set b.count x =
      b.slots.take b.count ++ [x] := by
    have hlt : b.count <
        (b.slots.take b.count ++ [b.slots[b.count]]).length := by
      rw [List.length_append, hlen]
      simp
    rw [List.set_eq_take_cons_drop x hlt]
    have h1 : (b.slots.take b.count ++ [b.slots[b.count]]).take b.count =
        b.slots.take b.count := by
      rw [List.take_append_of_le_length (by omega), List.take_take]
      congr 1
      omega
    have h2 : (b.slots.take b.count ++ [b.slots[b.count]]).drop
        (b.count + 1) = [] := by
      apply List.drop_eq_nil_of_le
      simp [hlen]
    rw [h1, h2]
  rw [hset]
  rfl

theorem chainPut_some_counts {α : Type} (max : Nat) (x : α)
    (ch ch' : List (ck_bag_block α)) (h : chainPut max x ch = some ch') :
    chainEntries ch' = chainEntries ch + 1 ∧ ch'.length = ch.length := by
  induction ch generalizing ch' with
  | nil => simp [chainPut] at h
  | cons b rest ih =>
    by_cases hb : b.count < max
    · rw [chainPut, if_pos hb, Option.some.injEq] at h
      subst h
      simp [chainEntries, ck_bag_block_put]
      omega
    · rw [chainPut, if_neg hb, Option.map_eq_some'] at h
      obtain ⟨r', hr', rfl⟩ := h
      obtain ⟨h1, h2⟩ := ih r' hr'
      simp [chainEntries, h1, h2]
      omega

theorem chainPut_some_live {α : Type} (max : Nat) (x : α)
    (ch ch' : List (ck_bag_block α)) (hwf : chainWF max ch)
    (h : chainPut max x ch = some ch') :
    chainWF max ch' ∧ chainLive ch' = x ::ₘ chainLive ch := by
  induction ch generalizing ch' with
  | nil => simp [chainPut] at h
  | cons b rest ih =>
    rw [chainWF_cons] at hwf
    obtain ⟨⟨hbc, hbl⟩, hwfr⟩ := hwf
    by_cases hb : b.count < max
    · rw [chainPut, if_pos hb, Option.some.injEq] at h
      subst h
      obtain ⟨hlive, hcnt, hlen⟩ :=
        ck_bag_block_put_live x b (by omega)
      constructor
      · rw [chainWF_cons]
        exact ⟨⟨by omega, by omega⟩, hwfr⟩
      · rw [chainLive, chainLive, hlive]
        rw [← Multiset.coe_add, Multiset.coe_singleton,
          ← Multiset.singleton_add]
        abel
    · rw [chainPut, if_neg hb, Option.map_eq_some'] at h
      obtain ⟨r', hr', rfl⟩ := h
      obtain ⟨hwf', hlive'⟩ := ih r' hwfr hr'
      constructor
      · rw [chainWF_cons]
        exact ⟨⟨hbc, hbl⟩, hwf'⟩
      · rw [chainLive, chainLive, hlive', ← Multiset.singleton_add,
          ← Multiset.singleton_add]
        abel

theorem ck_bag_block_remove_count {α : Type} [DecidableEq α] (d : α)
    (b : ck_bag_block α) (i : Nat) :
    (ck_bag_block_remove d b i).count = b.count - 1 := by
  rw [ck_bag_block_remove]
  split <;> rfl

theorem ck_bag_block_remove_length {α : Type} [DecidableEq α] (d : α)
    (b : ck_bag_block α) (i : Nat) :
    (ck_bag_block_remove d b i).slots.length = b.slots.length := by
  rw [ck_bag_block_remove]
  split
  · rfl
  · simp

theorem chainRemove_some_counts {α : Type} [DecidableEq α] (d x : α)
    (ch ch' : List (ck_bag_block α)) (h : chainRemove d x ch = some ch') :
    chainEntries ch' + 1 = chainEntries ch ∧ ch'.length = ch.length := by
  induction ch generalizing ch' with
  | nil => simp [chainRemove] at h
  | cons b rest ih =>
    rw [chainRemove] at h
    cases hf : findIdxFrom x (ck_bag_block_live b) with
    | some i =>
      rw [hf, Option.some.injEq] at h
      subst h
      have hi := (findIdxFrom_some_spec x _ i hf).1
      have hcnt : 0 < b.count := by
        simp [ck_bag_block_live, List.length_take] at hi
        omega
      simp [chainEntries, ck_bag_block_remove_count]
      omega
    | none =>
      rw [hf, Option.map_eq_some'] at h
      obtain ⟨r', hr', rfl⟩ := h
      obtain ⟨h1, h2⟩ := ih r' hr'
      simp [chainEntries, h2]
      omega

theorem chainRemove_some_live {α : Type} [DecidableEq α] (max : Nat)
    (d x : α) (ch ch' : List (ck_bag_block α)) (hwf : chainWF max ch)
    (h : chainRemove d x ch = some ch') :
    chainWF max ch' ∧ chainLive ch' + {x} = chainLive ch := by
  induction ch generalizing ch' with
  | nil => simp [chainRemove] at h
  | cons b rest ih =>
    rw [chainWF_cons] at hwf
    obtain ⟨⟨hbc, hbl⟩, hwfr⟩ := hwf
    rw [chainRemove] at h
    cases hf : findIdxFrom x (ck_bag_block_live b) with
    | some i =>
      rw [hf, Option.some.injEq] at h
      subst h
      obtain ⟨hilen, hix⟩ := findIdxFrom_some_spec x _ i hf
      have hc : b.count ≤ b.slots.length := by omega
      have hi : i < b.count := by
        rw [ck_bag_block_live_length b hc] at hilen
        exact hilen
      obtain ⟨hlive, hcnt, hlen⟩ :=
        ck_bag_block_remove_spec d x b i hc hi hix
      constructor
      · rw [chainWF_cons]
        refine ⟨⟨by omega, by omega⟩, hwfr⟩
      · rw [chainLive, chainLive, ← hlive]
        abel
    | none =>
      rw [hf, Option.map_eq_some'] at h
      obtain ⟨r', hr', rfl⟩ := h
      obtain ⟨hwf', hlive'⟩ := ih r' hwfr hr'
      constructor
      · rw [chainWF_cons]
        exact ⟨⟨hbc, hbl⟩, hwf'⟩
      · rw [chainLive, chainLive, ← hlive']
        abel

theorem chainRemove_none_not_mem {α : Type} [DecidableEq α] (d x : α)
    (ch : List (ck_bag_block α)) (h : chainRemove d x ch = none) :
    x ∉ chainLive ch := by
  induction ch with
  | nil => simp [chainLive]
  | cons b rest ih =>
    rw [chainRemove] at h
    cases hf : findIdxFrom x (ck_bag_block_live b) with
    | some i => rw [hf] at h; simp at h
    | none =>
      rw [hf, Option.map_eq_none'] at h
      have hb := (findIdxFrom_none_spec x _).mp hf
      have hr := ih h
      rw [chainLive, Multiset.mem_add]
      rintro (hmem | hmem)
      · exact hb (by simpa using hmem)
      · exact hr hmem

theorem ck_bag_put_spmc_ok {α : Type} [DecidableEq α] (max : Nat) (d : α)
    (bag : ck_bag α) (x : α) : (ck_bag_put_spmc max d bag x).1 = true := by
  cases h : chainPut max x bag.head <;> simp [ck_bag_put_spmc, h]

theorem ck_bag_put_spmc_entries {α : Type} [DecidableEq α] (max : Nat)
    (d : α) (bag : ck_bag α) (x : α) :
    (ck_bag_put_spmc max d bag x).2.n_entries = bag.n_entries + 1 := by
  cases h : chainPut max x bag.head <;> simp [ck_bag_put_spmc, h]

theorem ck_bag_put_spmc_bagCounts {α : Type} [DecidableEq α] (max : Nat)
    (d : α) (bag : ck_bag α) (x : α) (hc : bagCounts bag) :
    bagCounts (ck_bag_put_spmc max d bag x).2 := by
  obtain ⟨h1, h2⟩ := hc
  cases h : chainPut max x bag.head with
  | some ch' =>
    obtain ⟨he, hl⟩ := chainPut_some_counts max x bag.head ch' h
    simp [ck_bag_put_spmc, h, bagCounts, he, hl, h1, h2]
  | none =>
    simp [ck_bag_put_spmc, h, bagCounts, chainEntries, ck_bag_block_put,
      h1, h2]
    omega

theorem ck_bag_remove_spmc_bagCounts {α : Type} [DecidableEq α] (d : α)
    (bag : ck_bag α) (x : α) (hc : bagCounts bag) :
    bagCounts (ck_bag_remove_spmc d bag x).2 := by
  obtain ⟨h1, h2⟩ := hc
  cases h : chainRemove d x bag.head with
  | some ch' =>
    obtain ⟨he, hl⟩ := chainRemove_some_counts d x bag.head ch' h
    refine ⟨?_, ?_⟩ <;> simp [ck_bag_remove_spmc, h] <;> omega
  | none => simp [ck_bag_remove_spmc, h, bagCounts, h1, h2]

theorem applyOp_bagCounts {α : Type} [DecidableEq α] (max : Nat) (d : α)
    (bag : ck_bag α) (op : BagOp α) (hc : bagCounts bag) :
    bagCounts (applyOp max d bag op) := by
  cases op with
  | put x => exact ck_bag_put_spmc_bagCounts max d bag x hc
  | remove x => exact ck_bag_remove_spmc_bagCounts d bag x hc

theorem applyOps_bagCounts {α : Type} [DecidableEq α] (max : Nat) (d : α)
    (ops : List (BagOp α)) :
    ∀ bag : ck_bag α, bagCounts bag → bagCounts (applyOps max d bag ops) := by
  induction ops with
  | nil => exact fun bag hc => hc
  | cons op ops ih =>
    intro bag hc
    exact ih _ (applyOp_bagCounts max d bag op hc)

theorem applyOps_entries_balance {α : Type} [DecidableEq α] (max : Nat)
    (d : α) (ops : List (BagOp α)) :
    ∀ bag : ck_bag α, bagCounts bag →
      (applyOps max d bag ops).n_entries + succRemoves max d bag ops =
        bag.n_entries + succPuts max d bag ops := by
  induction ops with
  | nil => intro bag _; simp [applyOps, succPuts, succRemoves]
  | cons op ops ih =>
    intro bag hc
    cases op with
    | put x =>
      rw [applyOps, succPuts, succRemoves, applyOp, ck_bag_put_spmc_ok,
        if_pos rfl]
      have hbal := ih (ck_bag_put_spmc max d bag x).2
        (ck_bag_put_spmc_bagCounts max d bag x hc)
      rw [ck_bag_put_spmc_entries] at hbal
      omega
    | remove x =>
      rw [applyOps, succPuts, succRemoves, applyOp]
      cases h : chainRemove d x bag.head with
      | some ch' =>
        have hok : (ck_bag_remove_spmc d bag x).1 = true := by
          simp [ck_bag_remove_spmc, h]
        rw [hok, if_pos rfl]
        have hbal := ih (ck_bag_remove_spmc d bag x).2
          (ck_bag_remove_spmc_bagCounts d bag x hc)
        obtain ⟨he, _⟩ := chainRemove_some_counts d x bag.head ch' h
        have hn1 : bag.n_entries = chainEntries bag.head := hc.1
        have hge : 1 ≤ bag.n_entries := by omega
        have hne : (ck_bag_remove_spmc d bag x).2.n_entries =
            bag.n_entries - 1 := by
          simp [ck_bag_remove_spmc, h]
        rw [hne] at hbal
        omega
      | none =>
        have hok : (ck_bag_remove_spmc d bag x).1 = false := by
          simp [ck_bag_remove_spmc, h]
        rw [hok]
        have hbal := ih (ck_bag_remove_spmc d bag x).2
          (ck_bag_remove_spmc_bagCounts d bag x hc)
        have hne : (ck_bag_remove_spmc d bag x).2 = bag := by
          simp [ck_bag_remove_spmc, h]
        rw [hne] at hbal ⊢
        simp only [Bool.false_eq_true, if_false]
        omega

/-- C5: for every finite sequence of put and remove calls by the single
mutator starting from a freshly initialized bag, `ck_bag_count` afterward
equals the number of puts that returned success minus the number of removes
that returned success (and the successful removes never outnumber the
successful puts). -/
theorem ck_bag_count_eq_puts_sub_removes {α : Type} [DecidableEq α]
    (max : Nat) (d : α) (ops : List (BagOp α)) :
    ck_bag_count (applyOps max d ck_bag_init ops) =
        succPuts max d ck_bag_init ops -
          succRemoves max d ck_bag_init ops ∧
      succRemoves max d ck_bag_init ops ≤
        succPuts max d ck_bag_init ops := by
  have hinit : bagCounts (ck_bag_init (α := α)) := by
    constructor <;> rfl
  have hbal := applyOps_entries_balance max d ops ck_bag_init hinit
  rw [ck_bag_count]
  have h0 : (ck_bag_init (α := α)).n_entries = 0 := rfl
  rw [h0] at hbal
  omega

/-- C7: in every state reachable from the freshly initialized bag by the
single mutator's operations, `n_entries` equals the sum of the per-block live
counts over all blocks in the chain and `n_blocks` equals the number of
blocks reachable from the chain head. -/
theorem ck_bag_totals_invariant {α : Type} [DecidableEq α] (max : Nat)
    (d : α) (ops : List (BagOp α)) :
    (applyOps max d ck_bag_init ops).n_entries =
        chainEntries (applyOps max d ck_bag_init ops).head ∧
      (applyOps max d ck_bag_init ops).n_blocks =
        (applyOps max d ck_bag_init ops).head.length :=
  applyOps_bagCounts max d ops ck_bag_init ⟨rfl, rfl⟩

theorem applyOps_live {α : Type} [DecidableEq α] (max : Nat) (d : α)
    (hmax : 0 < max) (ops : List (BagOp α)) :
    ∀ bag : ck_bag α, chainWF max bag.head →
      chainWF max (applyOps max d bag ops).head ∧
        chainLive (applyOps max d bag ops).head =
          opsLiveFrom (chainLive bag.head) ops := by
  induction ops with
  | nil => exact fun bag hwf => ⟨hwf, rfl⟩
  | cons op ops ih =>
    intro bag hwf
    cases op with
    | put x =>
      rw [applyOps, applyOp, opsLiveFrom]
      cases h : chainPut max x bag.head with
      | some ch' =>
        obtain ⟨hwf', hlive'⟩ := chainPut_some_live max x bag.head ch' hwf h
        have hstep := ih ⟨ch', bag.n_entries + 1, bag.n_blocks⟩ hwf'
        simp only [ck_bag_put_spmc, h] at *
        rw [hlive'] at hstep
        exact hstep
      | none =>
        have hrep : (0 : Nat) < (List.replicate max d).length := by
          simpa using hmax
        obtain ⟨hlive0, hcnt0, hlen0⟩ :=
          ck_bag_block_put_live x ⟨List.replicate max d, 0⟩ hrep
        have hlivex : ck_bag_block_live
            (ck_bag_block_put x ⟨List.replicate max d, 0⟩) = [x] := by
          rw [hlive0]
          simp [ck_bag_block_live]
        have hwfnew : chainWF max
            (ck_bag_block_put x ⟨List.replicate max d, 0⟩ :: bag.head) := by
          rw [chainWF_cons]
          exact ⟨⟨by simp [ck_bag_block_put]; omega,
            by simp [ck_bag_block_put]⟩, hwf⟩
        have hstep := ih ⟨ck_bag_block_put x ⟨List.replicate max d, 0⟩ ::
          bag.head, bag.n_entries + 1, bag.n_blocks + 1⟩ hwfnew
        simp only [ck_bag_put_spmc, h] at *
        have hchain : chainLive (ck_bag_block_put x
            ⟨List.replicate max d, 0⟩ :: bag.head) =
            x ::ₘ chainLive bag.head := by
          rw [chainLive, hlivex, Multiset.coe_singleton,
            Multiset.singleton_add]
        rw [hchain] at hstep
        exact hstep
    | remove x =>
      rw [applyOps, applyOp, opsLiveFrom]
      cases h : chainRemove d x bag.head with
      | some ch' =>
        obtain ⟨hwf', hlive'⟩ :=
          chainRemove_some_live max d x bag.head ch' hwf h
        have herase : (chainLive bag.head).erase x = chainLive ch' := by
          rw [← hlive', add_comm, Multiset.singleton_add,
            Multiset.erase_cons_head]
        have hstep := ih ⟨ch', bag.n_entries - 1, bag.n_blocks⟩ hwf'
        simp only [ck_bag_remove_spmc, h] at *
        rw [herase]
        exact hstep
      | none =>
        have hnm := chainRemove_none_not_mem d x bag.head h
        have hstep := ih bag hwf
        simp only [ck_bag_remove_spmc, h] at *
        rw [Multiset.erase_of_not_mem hnm]
        exact hstep

/-- C4: after every finite sequence of put and remove operations by the
single mutator, every block of the chain keeps its live count within the
configured capacity (`count ≤ max`, with exactly `max` physical slots, so
slots `[count, max)` lie outside the live region and are free for reuse),
and the contiguous prefixes `[0, count)` of the blocks together hold exactly
the multiset of entries the operation history calls for — removal compacts
by moving the last live slot into the vacated position, so no live entry
ever sits outside a prefix and no gap ever forms inside one. -/
theorem ck_bag_blocks_contiguous {α : Type} [DecidableEq α] (max : Nat)
    (d : α) (ops : List (BagOp α)) (hmax : 0 < max) :
    (∀ b ∈ (applyOps max d ck_bag_init ops).head,
        b.count ≤ max ∧ b.slots.length = max) ∧
      chainLive (applyOps max d ck_bag_init ops).head = opsLiveFrom 0 ops := by
  have hempty : chainWF max (ck_bag_init (α := α)).head := by
    intro b hb
    simp [ck_bag_init] at hb
  exact applyOps_live max d hmax ops ck_bag_init hempty

/-- Witness for C4: capacity 2, operations put 5, put 6, put 7, remove 6. -/
theorem ck_bag_blocks_contiguous_witness :
    (0 : Nat) < 2 ∧
      ((∀ b ∈ (applyOps 2 0 ck_bag_init
          [BagOp.put 5, BagOp.put 6, BagOp.put 7, BagOp.remove 6]).head,
        b.count ≤ 2 ∧ b.slots.length = 2) ∧
      chainLive (applyOps 2 0 ck_bag_init
          [BagOp.put 5, BagOp.put 6, BagOp.put 7, BagOp.remove 6]).head =
        opsLiveFrom 0
          [BagOp.put 5, BagOp.put 6, BagOp.put 7, BagOp.remove 6]) :=
  ⟨by decide, ck_bag_blocks_contiguous 2 0
    [BagOp.put 5, BagOp.put 6, BagOp.put 7, BagOp.remove 6] (by decide)⟩
